import Mathlib

/-!
Verification of the core claims about the 2D physics engine: the dynamic
AABB tree (aabbtree.ts), the joint constraint solver (prismatic.ts, grab.ts,
the LineJoint/WeldJoint/DistanceJoint sources), the rigid-body collider
(collider.js) and the Edge helper (edge.ts).  Geometry and solver arithmetic
are embedded over exact rationals; the Edge direction, which genuinely needs
a square root, is embedded over the reals.
-/

namespace Phys

/-- Modelled from the spec: an AABB is a min and a max 2-vector (spec section 3,
aabb.ts is not part of the sources); the four corner coordinates, over ℚ. -/
structure AABB where
  minx : ℚ
  miny : ℚ
  maxx : ℚ
  maxy : ℚ
deriving DecidableEq, Repr

/-- Modelled from the spec: the union of two AABBs is the smallest AABB
containing both (spec section 3). -/
def union (a b : AABB) : AABB :=
  ⟨min a.minx b.minx, min a.miny b.miny, max a.maxx b.maxx, max a.maxy b.maxy⟩

/-- Modelled from the spec: area = (max.x − min.x)·(max.y − min.y). -/
def area (a : AABB) : ℚ :=
  (a.maxx - a.minx) * (a.maxy - a.miny)

/-- Modelled from the spec: the AABB overlap test used by the tree queries and
the broad phase (detectCollisionAABB from aabb.ts, not in the sources). -/
def detectCollisionAABB (a b : AABB) : Bool :=
  a.minx ≤ b.maxx && b.minx ≤ a.maxx && a.miny ≤ b.maxy && b.miny ≤ a.maxy

/-- An AABB with nonnegative extents (min ≤ max on both axes). -/
def boxValid (a : AABB) : Bool :=
  a.minx ≤ a.maxx && a.miny ≤ a.maxy

/-- A tree node (interface Node in aabbtree.ts): a leaf carrying a body, or an
internal node carrying two children.  Child pointers become subtrees; the
parent pointer of the source is implicit in the position inside the tree. -/
inductive Tree where
  | leaf (id : ℕ) (box : AABB)
  | node (id : ℕ) (box : AABB) (c1 c2 : Tree)
deriving DecidableEq, Repr

namespace Tree

def box : Tree → AABB
  | .leaf _ b => b
  | .node _ b _ _ => b

def id : Tree → ℕ
  | .leaf i _ => i
  | .node i _ _ _ => i

def isLeaf : Tree → Bool
  | .leaf _ _ => true
  | .node _ _ _ _ => false

def size : Tree → ℕ
  | .leaf _ _ => 1
  | .node _ _ l r => 1 + l.size + r.size

theorem one_le_size : ∀ t : Tree, 1 ≤ t.size
  | .leaf _ _ => le_refl 1
  | .node _ _ l r => by simp [Tree.size]; omega

end Tree

/-- The child in slot `d` (`false` = child1, `true` = child2); a leaf returns
itself (the walks below never take this branch). -/
def childAt (t : Tree) (d : Bool) : Tree :=
  match t, d with
  | .leaf i b, _ => .leaf i b
  | .node _ _ l _, false => l
  | .node _ _ _ r, true => r

/-- Rebuild an internal node with the walked child in slot `d` and its sibling
in the other slot. -/
def withChildren (i : ℕ) (b : AABB) (d : Bool) (atD atOther : Tree) : Tree :=
  match d with
  | false => .node i b atD atOther
  | true => .node i b atOther atD

/-- Apply `f` to the child in slot `d`. -/
def updateChild (t : Tree) (d : Bool) (f : Tree → Tree) : Tree :=
  match t, d with
  | .leaf i b, _ => .leaf i b
  | .node i b l r, false => .node i b (f l) r
  | .node i b l r, true => .node i b l (f r)

/-- Invariant I1 of the spec: every internal node's AABB equals the union of
its two children's AABBs, exactly. -/
def I1 : Tree → Bool
  | .leaf _ _ => true
  | .node _ b l r => (b == union l.box r.box) && I1 l && I1 r

/-- I1 restricted to the two child subtrees: the root's own box is not
constrained. -/
def I1c : Tree → Bool
  | .leaf _ _ => true
  | .node _ _ l r => I1 l && I1 r

/-- Refresh one node's AABB to the union of its children (one refit step of
the walks in aabbtree.ts, lines 125-128 and 285-291). -/
def refitRoot : Tree → Tree
  | .leaf i b => .leaf i b
  | .node i _ l r => .node i (union l.box r.box) l r

theorem union_comm (a b : AABB) : union a b = union b a := by
  simp [union, min_comm, max_comm]

theorem refitRoot_size (t : Tree) : (refitRoot t).size = t.size := by
  cases t <;> rfl

theorem refitRoot_box_leaf (i : ℕ) (b : AABB) : refitRoot (.leaf i b) = .leaf i b := rfl

theorem I1_of_I1c_refit (t : Tree) (h : I1c t = true) : I1 (refitRoot t) = true := by
  cases t with
  | leaf i b => rfl
  | node i b l r => simp_all [I1c, I1, refitRoot]

theorem I1c_of_I1 (t : Tree) (h : I1 t = true) : I1c t = true := by
  cases t with
  | leaf i b => rfl
  | node i b l r => simp_all [I1c, I1]

theorem I1c_withChildren (i : ℕ) (b : AABB) (d : Bool) (u v : Tree) :
    I1c (withChildren i b d u v) = (I1 u && I1 v) := by
  cases d <;> simp [withChildren, I1c, Bool.and_comm]

theorem size_withChildren (i : ℕ) (b : AABB) (d : Bool) (u v : Tree) :
    (withChildren i b d u v).size = 1 + u.size + v.size := by
  cases d <;> (simp [withChildren, Tree.size]; try omega)

theorem childAt_withChildren_same (i : ℕ) (b : AABB) (d : Bool) (u v : Tree) :
    childAt (withChildren i b d u v) d = u := by
  cases d <;> simp [withChildren, childAt]

theorem childAt_withChildren_other (i : ℕ) (b : AABB) (d : Bool) (u v : Tree) :
    childAt (withChildren i b d u v) (!d) = v := by
  cases d <;> simp [withChildren, childAt]

theorem updateChild_refit_size (t : Tree) (d : Bool) :
    (updateChild t d refitRoot).size = t.size := by
  cases t with
  | leaf i b => rfl
  | node i b l r => cases d <;> simp [updateChild, Tree.size, refitRoot_size]

theorem childAt_updateChild_refit (t : Tree) (d : Bool) :
    childAt (updateChild t d refitRoot) d = refitRoot (childAt t d) := by
  cases t with
  | leaf i b => rfl
  | node i b l r => cases d <;> simp [updateChild, childAt]

theorem childAt_updateChild_other (t : Tree) (d : Bool) (f : Tree → Tree) :
    childAt (updateChild t d f) (!d) = childAt t (!d) := by
  cases t with
  | leaf i b => rfl
  | node i b l r => cases d <;> simp [updateChild, childAt]

/-- AABBTree.rotate (aabbtree.ts lines 139-230), as a function on the parent
subtree of the refit walk's current node; `d` names the child slot holding the
current node.  The source scans the candidate list `costDiffs` for its first
minimum and performs that rotation when the minimum is strictly negative; the
scan is rendered as nested comparisons with the running first-win minimum.
The returned flag records whether a type-2/3 rotation ran, i.e. whether the
current node was reparented under its old sibling (node.parent = sibling in
the source), so that the pointer walk's next ancestor is the old sibling
rather than this node's parent. -/
def rotateAt (P : Tree) (d : Bool) : Tree × Bool :=
  match P with
  | .leaf i b => (.leaf i b, false)
  | .node ip bp pc1 pc2 =>
    let n := match d with | false => pc1 | true => pc2
    let s := match d with | false => pc2 | true => pc1
    match n with
    | .leaf _ _ => (.node ip bp pc1 pc2, false)
    | .node ni nb nc1 nc2 =>
      let d0 := area (union s.box nc1.box) - area nb
      let d1 := area (union s.box nc2.box) - area nb
      match s with
      | .leaf _ _ =>
        -- costDiffs = [d0, d1]
        if d1 < d0 then
          if d1 < 0 then
            (withChildren ip bp d (.node ni (union s.box nc2.box) s nc2) nc1, false)
          else (.node ip bp pc1 pc2, false)
        else
          if d0 < 0 then
            (withChildren ip bp d (.node ni (union s.box nc1.box) nc1 s) nc2, false)
          else (.node ip bp pc1 pc2, false)
      | .node si sb sc1 sc2 =>
        -- costDiffs = [d0, d1, d2, d3]
        let d2 := area (union nb sc1.box) - area sb
        let d3 := area (union nb sc2.box) - area sb
        let v01 := if d1 < d0 then d1 else d0
        let v012 := if d2 < v01 then d2 else v01
        if d3 < v012 then
          if d3 < 0 then
            -- case 3: swap node and sibling.child1; the source recomputes the
            -- sibling box as union(node.aabb, sibling.child1.aabb) after the
            -- slot already holds the node, hence union nb nb
            (withChildren ip bp d sc1
              (.node si (union nb nb) (.node ni nb nc1 nc2) sc2), true)
          else (.node ip bp pc1 pc2, false)
        else if d2 < v01 then
          if d2 < 0 then
            -- case 2: swap node and sibling.child2; same stale union nb nb
            (withChildren ip bp d sc2
              (.node si (union nb nb) sc1 (.node ni nb nc1 nc2)), true)
          else (.node ip bp pc1 pc2, false)
        else if d1 < d0 then
          if d1 < 0 then
            (withChildren ip bp d (.node ni (union s.box nc2.box) s nc2) nc1, false)
          else (.node ip bp pc1 pc2, false)
        else
          if d0 < 0 then
            (withChildren ip bp d (.node ni (union s.box nc1.box) nc1 s) nc2, false)
          else (.node ip bp pc1 pc2, false)

set_option maxHeartbeats 1600000 in
theorem rotateAt_sizes (P : Tree) (d : Bool) (P' : Tree)
    (h : rotateAt P d = (P', true)) :
    P'.size = P.size ∧ (childAt P d).size < P.size ∧
      (childAt P d).size + 2 ≤ (childAt P' (!d)).size := by
  cases P with
  | leaf i b => simp [rotateAt] at h
  | node ip bp pc1 pc2 =>
    cases d with
    | false =>
      cases pc1 with
      | leaf i b => simp [rotateAt] at h
      | node ni nb nc1 nc2 =>
        cases pc2 with
        | leaf i b =>
          simp only [rotateAt] at h
          split_ifs at h <;>
            (rw [Prod.mk.injEq] at h; exact Bool.noConfusion h.2)
        | node si sb sc1 sc2 =>
          have hs1 := Tree.one_le_size sc1
          have hs2 := Tree.one_le_size sc2
          simp only [rotateAt] at h
          split_ifs at h <;>
            (rw [Prod.mk.injEq] at h
             rcases h with ⟨h1, h2⟩
             first
               | exact Bool.noConfusion h2
               | (rw [← h1]
                  refine ⟨?_, ?_, ?_⟩ <;>
                    (simp [withChildren, childAt, Tree.size]; try omega)))
    | true =>
      cases pc2 with
      | leaf i b => simp [rotateAt] at h
      | node ni nb nc1 nc2 =>
        cases pc1 with
        | leaf i b =>
          simp only [rotateAt] at h
          split_ifs at h <;>
            (rw [Prod.mk.injEq] at h; exact Bool.noConfusion h.2)
        | node si sb sc1 sc2 =>
          have hs1 := Tree.one_le_size sc1
          have hs2 := Tree.one_le_size sc2
          simp only [rotateAt] at h
          split_ifs at h <;>
            (rw [Prod.mk.injEq] at h
             rcases h with ⟨h1, h2⟩
             first
               | exact Bool.noConfusion h2
               | (rw [← h1]
                  refine ⟨?_, ?_, ?_⟩ <;>
                    (simp [withChildren, childAt, Tree.size]; try omega)))

theorem pairEq_fst {a c : Tree} {b d : Bool} (h : (a, b) = (c, d)) : a = c :=
  congrArg Prod.fst h

theorem pairEq_snd {a c : Tree} {b d : Bool} (h : (a, b) = (c, d)) : b = d :=
  congrArg Prod.snd h

theorem I1_node_parts (i : ℕ) (b : AABB) (l r : Tree) (h : I1 (.node i b l r) = true) :
    b = union l.box r.box ∧ I1 l = true ∧ I1 r = true := by
  simp [I1] at h
  tauto

theorem I1c_node_parts (i : ℕ) (b : AABB) (l r : Tree) (h : I1c (.node i b l r) = true) :
    I1 l = true ∧ I1 r = true := by
  simp [I1c] at h
  tauto

/-- The per-level cascade of the refit walk (aabbtree.ts lines 121-133): the
walk refits the current ancestor and calls rotate on it; when a type-2/3
rotation reparents that node under its old sibling, the next ancestor visited
is the old sibling at the other child slot of the same parent, which the walk
then refits and rotates in turn.  The cascade ends with the first iteration
that performs no type-2/3 rotation. -/
def rotateLoop (P : Tree) (d : Bool) : Tree :=
  match h : rotateAt P d with
  | (P', false) => P'
  | (P', true) => rotateLoop (updateChild P' (!d) refitRoot) (!d)
termination_by P.size - (childAt P d).size
decreasing_by
  obtain ⟨h1, h2, h3⟩ := rotateAt_sizes P d P' h
  rw [updateChild_refit_size, childAt_updateChild_refit, refitRoot_size, h1]
  omega

theorem rotateAt_I1c_false (P : Tree) (d : Bool) (P' : Tree)
    (h : rotateAt P d = (P', false)) (hP : I1c P = true) : I1c P' = true := by
  cases P with
  | leaf i b => rw [← pairEq_fst h]; rfl
  | node ip bp pc1 pc2 =>
    obtain ⟨hl, hr⟩ := I1c_node_parts ip bp pc1 pc2 hP
    cases d with
    | false =>
      cases pc1 with
      | leaf i b =>
        simp only [rotateAt] at h
        rw [← pairEq_fst h]; exact hP
      | node ni nb nc1 nc2 =>
        obtain ⟨hnb, hn1, hn2⟩ := I1_node_parts ni nb nc1 nc2 hl
        cases pc2 with
        | leaf i b =>
          simp only [rotateAt] at h
          split_ifs at h <;>
            (rw [← pairEq_fst h]
             clear h
             simp_all [I1c_withChildren, withChildren, I1c, I1, Tree.box, union_comm])
        | node si sb sc1 sc2 =>
          obtain ⟨hsb, hsc1, hsc2⟩ := I1_node_parts si sb sc1 sc2 hr
          simp only [rotateAt] at h
          split_ifs at h <;>
            first
              | exact Bool.noConfusion (pairEq_snd h)
              | (rw [← pairEq_fst h]
                 clear h
                 simp_all [I1c_withChildren, withChildren, I1c, I1, Tree.box, union_comm])
    | true =>
      cases pc2 with
      | leaf i b =>
        simp only [rotateAt] at h
        rw [← pairEq_fst h]; exact hP
      | node ni nb nc1 nc2 =>
        obtain ⟨hnb, hn1, hn2⟩ := I1_node_parts ni nb nc1 nc2 hr
        cases pc1 with
        | leaf i b =>
          simp only [rotateAt] at h
          split_ifs at h <;>
            (rw [← pairEq_fst h]
             clear h
             simp_all [I1c_withChildren, withChildren, I1c, I1, Tree.box, union_comm])
        | node si sb sc1 sc2 =>
          obtain ⟨hsb, hsc1, hsc2⟩ := I1_node_parts si sb sc1 sc2 hl
          simp only [rotateAt] at h
          split_ifs at h <;>
            first
              | exact Bool.noConfusion (pairEq_snd h)
              | (rw [← pairEq_fst h]
                 clear h
                 simp_all [I1c_withChildren, withChildren, I1c, I1, Tree.box, union_comm])

theorem rotateAt_I1c_true (P : Tree) (d : Bool) (P' : Tree)
    (h : rotateAt P d = (P', true)) (hP : I1c P = true) :
    I1c (updateChild P' (!d) refitRoot) = true := by
  cases P with
  | leaf i b => exact Bool.noConfusion (pairEq_snd h)
  | node ip bp pc1 pc2 =>
    obtain ⟨hl, hr⟩ := I1c_node_parts ip bp pc1 pc2 hP
    cases d with
    | false =>
      cases pc1 with
      | leaf i b =>
        simp only [rotateAt] at h
        exact Bool.noConfusion (pairEq_snd h)
      | node ni nb nc1 nc2 =>
        obtain ⟨hnb, hn1, hn2⟩ := I1_node_parts ni nb nc1 nc2 hl
        cases pc2 with
        | leaf i b =>
          simp only [rotateAt] at h
          split_ifs at h <;> exact Bool.noConfusion (pairEq_snd h)
        | node si sb sc1 sc2 =>
          obtain ⟨hsb, hsc1, hsc2⟩ := I1_node_parts si sb sc1 sc2 hr
          simp only [rotateAt] at h
          split_ifs at h <;>
            first
              | exact Bool.noConfusion (pairEq_snd h)
              | (rw [← pairEq_fst h]
                 clear h
                 simp_all [withChildren, updateChild, refitRoot, I1c, I1, Tree.box, union_comm])
    | true =>
      cases pc2 with
      | leaf i b =>
        simp only [rotateAt] at h
        exact Bool.noConfusion (pairEq_snd h)
      | node ni nb nc1 nc2 =>
        obtain ⟨hnb, hn1, hn2⟩ := I1_node_parts ni nb nc1 nc2 hr
        cases pc1 with
        | leaf i b =>
          simp only [rotateAt] at h
          split_ifs at h <;> exact Bool.noConfusion (pairEq_snd h)
        | node si sb sc1 sc2 =>
          obtain ⟨hsb, hsc1, hsc2⟩ := I1_node_parts si sb sc1 sc2 hl
          simp only [rotateAt] at h
          split_ifs at h <;>
            first
              | exact Bool.noConfusion (pairEq_snd h)
              | (rw [← pairEq_fst h]
                 clear h
                 simp_all [withChildren, updateChild, refitRoot, I1c, I1, Tree.box, union_comm])

theorem rotateLoop_I1c (P : Tree) (d : Bool) (hP : I1c P = true) :
    I1c (rotateLoop P d) = true := by
  induction P, d using rotateLoop.induct with
  | case1 P d P' heq =>
    rw [rotateLoop, heq]
    exact rotateAt_I1c_false P d P' heq hP
  | case2 P d P' heq ih =>
    rw [rotateLoop, heq]
    exact ih (rotateAt_I1c_true P d P' heq hP)

/-- The post-insertion refit-and-rotate walk (aabbtree.ts lines 121-133),
expressed top-down over the path from the root to the freshly created parent
node: the deeper ancestors are processed first (the recursive call), then the
walked child is refitted and the rotation cascade at this level runs.  The
walk's final refit of the root itself is performed by the caller (`add`). -/
def walkTD : Tree → List Bool → Tree
  | t, [] => t
  | .leaf i b, _ :: _ => .leaf i b
  | .node i b l r, d :: rest =>
    let c := match d with | false => l | true => r
    let other := match d with | false => r | true => l
    rotateLoop (withChildren i b d (refitRoot (walkTD c rest)) other) d

/-- The splice step of AABBTree.add (aabbtree.ts lines 88-119): a new internal
node takes the chosen sibling's slot, with the sibling as child1, the new leaf
as child2 and the union of their AABBs as its box. -/
def spliceAt (nl : Tree) (pid : ℕ) : Tree → List Bool → Tree
  | t, [] => .node pid (union nl.box t.box) t nl
  | .leaf i b, _ :: _ => .leaf i b
  | .node i b l r, d :: rest =>
    match d with
    | false => .node i b (spliceAt nl pid l rest) r
    | true => .node i b l (spliceAt nl pid r rest)

/-- A path that leads to a node of the tree. -/
def validPath : Tree → List Bool → Bool
  | _, [] => true
  | .leaf _ _, _ :: _ => false
  | .node _ _ l r, d :: rest => validPath (match d with | false => l | true => r) rest

/-- The subtree a path leads to. -/
def subtreeAt : Tree → List Bool → Option Tree
  | t, [] => some t
  | .leaf _ _, _ :: _ => none
  | .node _ _ l r, d :: rest => subtreeAt (match d with | false => l | true => r) rest

/-- The tree property holding along the refit walk's path just after the
splice: the spliced subtree sits at the end of the path with both its children
satisfying I1, every off-path sibling satisfies I1, and the boxes of the nodes
on the path itself are unconstrained (they are stale until the walk refits
them). -/
def GoodAlong : Tree → List Bool → Prop
  | t, [] => I1c t = true
  | .leaf _ _, _ :: _ => False
  | .node _ _ l r, d :: rest =>
    GoodAlong (match d with | false => l | true => r) rest ∧
      I1 (match d with | false => r | true => l) = true

theorem walkTD_I1c (p : List Bool) (t : Tree) (h : GoodAlong t p) :
    I1c (walkTD t p) = true := by
  induction p generalizing t with
  | nil => simpa only [walkTD, GoodAlong] using h
  | cons d rest ih =>
    cases t with
    | leaf i b => exact absurd h (by simp [GoodAlong])
    | node i b l r =>
      obtain ⟨hsub, hoth⟩ := h
      cases d with
      | false =>
        apply rotateLoop_I1c
        rw [I1c_withChildren]
        simp [I1_of_I1c_refit _ (ih l hsub), hoth]
      | true =>
        apply rotateLoop_I1c
        rw [I1c_withChildren]
        simp [I1_of_I1c_refit _ (ih r hsub), hoth]

theorem spliceAt_good (nl : Tree) (pid : ℕ) (hnl : I1 nl = true) :
    ∀ (p : List Bool) (t : Tree), I1 t = true → validPath t p = true →
      GoodAlong (spliceAt nl pid t p) p := by
  intro p
  induction p with
  | nil =>
    intro t ht _
    simp [spliceAt, GoodAlong, I1c, ht, hnl]
  | cons d rest ih =>
    intro t ht hv
    cases t with
    | leaf i b => simp [validPath] at hv
    | node i b l r =>
      obtain ⟨hb, hl, hr⟩ := I1_node_parts i b l r ht
      cases d with
      | false =>
        simp only [validPath] at hv
        exact ⟨ih l hl hv, hr⟩
      | true =>
        simp only [validPath] at hv
        exact ⟨ih r hr hv, hl⟩

/-- AABBTree.remove (aabbtree.ts lines 257-301) on the leaf a path leads to:
the parent is spliced out by promoting the removed leaf's sibling into its
slot, ancestors above are refitted bottom-up (rendered here as the rebuilt
spine), and removing a root leaf empties the tree. -/
def removeAt : Tree → List Bool → Option Tree
  | .leaf _ _, [] => none
  | t@(.node _ _ _ _), [] => some t
  | .leaf i b, _ :: _ => some (.leaf i b)
  | .node _ _ l r, [d] => some (match d with | false => r | true => l)
  | .node i _ l r, d :: e :: rest =>
    match d with
    | false =>
      let c := (removeAt l (e :: rest)).getD l
      some (.node i (union c.box r.box) c r)
    | true =>
      let c := (removeAt r (e :: rest)).getD r
      some (.node i (union l.box c.box) l c)

/-- I1 for an optional tree (an empty tree satisfies every invariant). -/
def I1opt : Option Tree → Bool
  | none => true
  | some t => I1 t

theorem removeAt_I1 (p : List Bool) (t : Tree) (ht : I1 t = true) :
    I1opt (removeAt t p) = true := by
  induction p generalizing t with
  | nil => cases t with
    | leaf i b => rfl
    | node i b l r => simpa [removeAt, I1opt] using ht
  | cons d rest ih =>
    cases t with
    | leaf i b => simpa [removeAt, I1opt] using ht
    | node i b l r =>
      obtain ⟨hb, hl, hr⟩ := I1_node_parts i b l r ht
      cases rest with
      | nil =>
        cases d with
        | false => simpa [removeAt, I1opt] using hr
        | true => simpa [removeAt, I1opt] using hl
      | cons e rest2 =>
        cases d with
        | false =>
          have hrec := ih l hl
          simp only [removeAt, I1opt]
          cases hc : removeAt l (e :: rest2) with
          | none => simp_all [I1, Option.getD, I1opt]
          | some c =>
            rw [hc] at hrec
            simp_all [I1, Option.getD, I1opt]
        | true =>
          have hrec := ih r hr
          simp only [removeAt, I1opt]
          cases hc : removeAt r (e :: rest2) with
          | none => simp_all [I1, Option.getD, I1opt]
          | some c =>
            rw [hc] at hrec
            simp_all [I1, Option.getD, I1opt]

/-- The best-candidate update of the search (aabbtree.ts lines 70-74): the
best sibling and cost are replaced only when the candidate cost is strictly
smaller. -/
def stepBest (p : List Bool) (c : ℚ) (best : List Bool × ℚ) : List Bool × ℚ :=
  if c < best.2 then (p, c) else best

/-- The best-sibling search loop of AABBTree.add (aabbtree.ts lines 49-86).
A queue entry holds the candidate subtree, its path from the root, and its
inherited cost; the source recomputes the inherited cost on every pop by
walking the parent pointers (lines 59-66), and since the tree does not change
during the search that ancestor sum is carried incrementally here: a child's
inherited cost is its parent's plus the parent's enlargement term.  The best
cost is updated only on strict improvement, and the two children are enqueued
exactly when the lower bound is strictly below the updated best and the
candidate is internal (lines 76-85); the queue is FIFO (q.shift and q.push). -/
def searchLoop (nbox : AABB) (q : List (Tree × List Bool × ℚ)) (best : List Bool × ℚ) :
    List Bool × ℚ :=
  match q with
  | [] => best
  | (cur, p, inh) :: rest =>
    let directCost := area (union cur.box nbox)
    let best1 := stepBest p (directCost + inh) best
    let enlarge := directCost - area cur.box
    let lowerBoundCost := area nbox + enlarge + inh
    match cur with
    | .leaf _ _ => searchLoop nbox rest best1
    | .node _ _ l r =>
      if lowerBoundCost < best1.2 then
        searchLoop nbox
          (rest ++ [(l, p ++ [false], inh + enlarge), (r, p ++ [true], inh + enlarge)]) best1
      else searchLoop nbox rest best1
termination_by (q.map fun e => e.1.size).sum
decreasing_by all_goals (simp [Tree.size]; try omega)

/-- The best-sibling search of AABBTree.add: seeded with the root at inherited
cost 0, and the root as initial best with cost area(union(root.aabb, aabb))
(aabbtree.ts lines 50-52). -/
def findBestSibling (t : Tree) (nbox : AABB) : List Bool × ℚ :=
  searchLoop nbox [(t, [], 0)] ([], area (union t.box nbox))

/-- AABBTree.add on a nonempty tree (aabbtree.ts lines 47-136): find the best
sibling, splice the new leaf next to it under a fresh parent, then run the
refit-and-rotate walk back to the root.  `nid` is the id the nodeID counter
gives the new leaf; the new parent receives the next id. -/
def addNonEmpty (t : Tree) (nid : ℕ) (nbox : AABB) : Tree :=
  let bp := (findBestSibling t nbox).1
  refitRoot (walkTD (spliceAt (.leaf nid nbox) (nid + 1) t bp) bp)

/-- AABBTree.add on an empty tree: the new leaf becomes the root
(aabbtree.ts lines 43-45). -/
def addEmpty (nid : ℕ) (nbox : AABB) : Tree :=
  .leaf nid nbox

theorem validPath_of_subtreeAt (p : List Bool) (t u : Tree)
    (h : subtreeAt t p = some u) : validPath t p = true := by
  induction p generalizing t with
  | nil => cases t <;> rfl
  | cons d rest ih =>
    cases t with
    | leaf i b => simp [subtreeAt] at h
    | node i b l r =>
      cases d with
      | false => exact ih l (by simpa [subtreeAt] using h)
      | true => exact ih r (by simpa [subtreeAt] using h)

theorem subtreeAt_child (p : List Bool) (t : Tree) (i : ℕ) (b : AABB) (l r : Tree)
    (h : subtreeAt t p = some (.node i b l r)) (d : Bool) :
    subtreeAt t (p ++ [d]) = some (match d with | false => l | true => r) := by
  induction p generalizing t with
  | nil =>
    simp only [subtreeAt, Option.some.injEq] at h
    subst h
    cases d <;> simp [subtreeAt]
  | cons e rest ih =>
    cases t with
    | leaf j c => simp [subtreeAt] at h
    | node j c tl tr =>
      cases e with
      | false => simpa [subtreeAt] using ih tl (by simpa [subtreeAt] using h)
      | true => simpa [subtreeAt] using ih tr (by simpa [subtreeAt] using h)

theorem stepBest_valid (t : Tree) (p : List Bool) (c : ℚ) (best : List Bool × ℚ)
    (hp : validPath t p = true) (hb : validPath t best.1 = true) :
    validPath t (stepBest p c best).1 = true := by
  rw [stepBest]
  split_ifs <;> simp [hp, hb]

theorem searchLoop_valid (nbox : AABB) (t : Tree) :
    ∀ (q : List (Tree × List Bool × ℚ)) (best : List Bool × ℚ),
      (∀ e ∈ q, subtreeAt t e.2.1 = some e.1) →
      validPath t best.1 = true →
      validPath t (searchLoop nbox q best).1 = true := by
  intro q best
  induction q, best using searchLoop.induct nbox with
  | case1 best =>
    intro _ hb
    simpa [searchLoop] using hb
  | case2 best p inh rest a a1 dc best1 ih =>
    intro hq hb
    rw [searchLoop]
    apply ih
    · intro e he
      exact hq e (List.mem_cons_of_mem _ he)
    · exact stepBest_valid t p _ best
        (validPath_of_subtreeAt p t _ (hq (.leaf a a1, p, inh) (List.mem_cons_self _ _))) hb
  | case3 best p inh rest a a1 l r dc best1 enl lb hif ih =>
    intro hq hb
    rw [searchLoop]
    have hcur := hq (.node a a1 l r, p, inh) (List.mem_cons_self _ _)
    rw [if_pos hif]
    apply ih
    · intro e he
      rcases List.mem_append.mp he with h1 | h2
      · exact hq e (List.mem_cons_of_mem _ h1)
      · simp only [List.mem_cons, List.not_mem_nil, or_false] at h2
        rcases h2 with h2 | h2
        · rw [h2]
          exact subtreeAt_child p t a a1 l r hcur false
        · rw [h2]
          exact subtreeAt_child p t a a1 l r hcur true
    · exact stepBest_valid t p _ best (validPath_of_subtreeAt p t _ hcur) hb
  | case4 best p inh rest a a1 l r dc best1 enl lb hif ih =>
    intro hq hb
    rw [searchLoop]
    have hcur := hq (.node a a1 l r, p, inh) (List.mem_cons_self _ _)
    rw [if_neg hif]
    apply ih
    · intro e he
      exact hq e (List.mem_cons_of_mem _ he)
    · exact stepBest_valid t p _ best (validPath_of_subtreeAt p t _ hcur) hb

theorem addNonEmpty_I1 (t : Tree) (ht : I1 t = true) (nid : ℕ) (nbox : AABB) :
    I1 (addNonEmpty t nid nbox) = true := by
  have hv : validPath t (findBestSibling t nbox).1 = true := by
    rw [findBestSibling]
    apply searchLoop_valid nbox t [(t, [], 0)] ([], area (union t.box nbox))
    · intro e he
      simp only [List.mem_singleton] at he
      rw [he]
      cases t <;> rfl
    · cases t <;> rfl
  exact I1_of_I1c_refit _ (walkTD_I1c _ _
    (spliceAt_good (.leaf nid nbox) (nid + 1) rfl _ t ht hv))

/-- C1 (amended): after every insertion (add) and every removal (remove) on a
tree satisfying invariant I1, every internal node's AABB again equals exactly
the union of its two children's AABBs.  The rotation part of the original
claim is amended: rotations of types 0 and 1 locally restore the equality for
the node they rearrange, but a type-2/3 rotation leaves the rearranged old
sibling with box union(node.aabb, node.aabb) = node.aabb instead of the union
of its new children; the walk's next refit step (of exactly that node)
restores the equality, so the invariant still holds for every internal node
once add returns. -/
theorem c1_add_remove_I1 (t : Tree) (ht : I1 t = true) :
    (∀ nid nbox, I1 (addNonEmpty t nid nbox) = true) ∧
      (∀ nid nbox, I1 (addEmpty nid nbox) = true) ∧
      (∀ p, I1opt (removeAt t p) = true) :=
  ⟨fun nid nbox => addNonEmpty_I1 t ht nid nbox,
   fun _ _ => rfl,
   fun p => removeAt_I1 p t ht⟩

/-- The parent subtree exhibiting the failure of the original C1 rotation
sub-claim: the current node (child1) is internal with both grandchildren at
the unit box, the sibling (child2) is internal with children at x-ranges
[2,3] and [0,10]; the type-2 rotation fires and leaves the rearranged sibling
with a stale AABB. -/
def c1P0 : Tree :=
  .node 0 ⟨0, 0, 10, 1⟩
    (.node 1 ⟨0, 0, 1, 1⟩ (.leaf 2 ⟨0, 0, 1, 1⟩) (.leaf 3 ⟨0, 0, 1, 1⟩))
    (.node 4 ⟨0, 0, 10, 1⟩ (.leaf 5 ⟨2, 0, 3, 1⟩) (.leaf 6 ⟨0, 0, 10, 1⟩))

/-- C1 counterexample: a type-2 rotation performed on an I1-correct pair of
subtrees (the exact precondition holding during the post-insertion walk) does
NOT restore `n.aabb == union(n.c1.aabb, n.c2.aabb)` for every node it
rearranges: the old sibling ends with box [0,1]x[0,1] although its children
now span [0,3]x[0,1]. -/
theorem c1_counterexample :
    I1c c1P0 = true ∧ (rotateAt c1P0 false).2 = true ∧
      I1c (rotateAt c1P0 false).1 = false := by
  norm_num [c1P0, rotateAt, I1c, I1, area, union, Tree.box, withChildren,
    min_def, max_def, AABB.mk.injEq]

/-- A concrete I1 tree of two leaves used to instantiate `c1_add_remove_I1`. -/
def c1T0 : Tree :=
  .node 2 ⟨0, 0, 3, 1⟩ (.leaf 0 ⟨0, 0, 1, 1⟩) (.leaf 1 ⟨2, 0, 3, 1⟩)

/-- C1 witness: the preservation theorem applied to a concrete two-leaf tree,
a concrete insertion and a concrete removal. -/
theorem c1_witness :
    I1 c1T0 = true ∧ I1 (addNonEmpty c1T0 3 ⟨4, 0, 5, 1⟩) = true ∧
      I1opt (removeAt c1T0 [true]) = true :=
  ⟨by norm_num [c1T0, I1, union, Tree.box, min_def, max_def],
    (c1_add_remove_I1 c1T0
      (by norm_num [c1T0, I1, union, Tree.box, min_def, max_def])).1 3 ⟨4, 0, 5, 1⟩,
    (c1_add_remove_I1 c1T0
      (by norm_num [c1T0, I1, union, Tree.box, min_def, max_def])).2.2 [true]⟩

/-- The ancestor sum of the best-sibling search (aabbtree.ts lines 59-66) for
the node a path leads to: for every proper ancestor, the area enlargement
union(ancestor.aabb, newAABB).area − ancestor.aabb.area. -/
def inheritedOf (nbox : AABB) : Tree → List Bool → ℚ
  | _, [] => 0
  | .leaf _ _, _ :: _ => 0
  | .node _ b l r, d :: rest =>
    (area (union b nbox) - area b) +
      inheritedOf nbox (match d with | false => l | true => r) rest

/-- The search cost the source attributes to choosing the node at a path as
the sibling: directCost + inheritedCost (aabbtree.ts line 68). -/
def nodeCost (t : Tree) (p : List Bool) (nbox : AABB) : ℚ :=
  area (union ((subtreeAt t p).getD t).box nbox) + inheritedOf nbox t p

/-- Every box in the tree has nonnegative extents. -/
def boxesValid : Tree → Bool
  | .leaf _ b => boxValid b
  | .node _ b l r => boxValid b && boxesValid l && boxesValid r

theorem area_le_union_left (a b : AABB) (ha : boxValid a = true) :
    area a ≤ area (union a b) := by
  simp only [boxValid, Bool.and_eq_true, decide_eq_true_eq] at ha
  obtain ⟨hx, hy⟩ := ha
  apply mul_le_mul
  · exact sub_le_sub (le_max_left _ _) (min_le_left _ _)
  · exact sub_le_sub (le_max_left _ _) (min_le_left _ _)
  · exact sub_nonneg.mpr hy
  · exact sub_nonneg.mpr (le_trans (min_le_left _ _) (le_trans hx (le_max_left _ _)))

theorem area_le_union_right (a b : AABB) (hb : boxValid b = true) :
    area b ≤ area (union a b) := by
  simp only [boxValid, Bool.and_eq_true, decide_eq_true_eq] at hb
  obtain ⟨hx, hy⟩ := hb
  apply mul_le_mul
  · exact sub_le_sub (le_max_right _ _) (min_le_right _ _)
  · exact sub_le_sub (le_max_right _ _) (min_le_right _ _)
  · exact sub_nonneg.mpr hy
  · exact sub_nonneg.mpr (le_trans (min_le_right _ _) (le_trans hx (le_max_right _ _)))

theorem boxesValid_node (i : ℕ) (b : AABB) (l r : Tree)
    (h : boxesValid (.node i b l r) = true) :
    boxValid b = true ∧ boxesValid l = true ∧ boxesValid r = true := by
  simp [boxesValid] at h
  tauto

theorem inheritedOf_nonneg (nbox : AABB) :
    ∀ (p : List Bool) (t : Tree), boxesValid t = true → 0 ≤ inheritedOf nbox t p := by
  intro p
  induction p with
  | nil => intro t _; cases t <;> simp [inheritedOf]
  | cons d rest ih =>
    intro t ht
    cases t with
    | leaf i b => simp [inheritedOf]
    | node i b l r =>
      obtain ⟨hb, hl, hr⟩ := boxesValid_node i b l r ht
      have henl : 0 ≤ area (union b nbox) - area b :=
        sub_nonneg.mpr (area_le_union_left b nbox hb)
      cases d with
      | false =>
        have := ih l hl
        simp only [inheritedOf]
        linarith
      | true =>
        have := ih r hr
        simp only [inheritedOf]
        linarith

theorem subtreeAt_some_of_valid : ∀ (p : List Bool) (t : Tree),
    validPath t p = true → ∃ u, subtreeAt t p = some u := by
  intro p
  induction p with
  | nil => intro t _; exact ⟨t, by cases t <;> rfl⟩
  | cons d rest ih =>
    intro t hv
    cases t with
    | leaf i b => simp [validPath] at hv
    | node i b l r =>
      cases d with
      | false => simpa [subtreeAt] using ih l (by simpa [validPath] using hv)
      | true => simpa [subtreeAt] using ih r (by simpa [validPath] using hv)

theorem validPath_append (q : List Bool) : ∀ (p : List Bool) (t u : Tree),
    subtreeAt t p = some u → validPath t (p ++ q) = validPath u q := by
  intro p
  induction p with
  | nil =>
    intro t u h
    simp only [subtreeAt, Option.some.injEq] at h
    subst h
    rfl
  | cons d rest ih =>
    intro t u h
    cases t with
    | leaf i b => simp [subtreeAt] at h
    | node i b l r =>
      cases d with
      | false => simpa [validPath] using ih l u (by simpa [subtreeAt] using h)
      | true => simpa [validPath] using ih r u (by simpa [subtreeAt] using h)

theorem inheritedOf_snoc (nbox : AABB) (d : Bool) :
    ∀ (p : List Bool) (t : Tree) (i : ℕ) (b : AABB) (l r : Tree),
      subtreeAt t p = some (.node i b l r) →
      inheritedOf nbox t (p ++ [d]) =
        inheritedOf nbox t p + (area (union b nbox) - area b) := by
  intro p
  induction p with
  | nil =>
    intro t i b l r h
    simp only [subtreeAt, Option.some.injEq] at h
    subst h
    cases d <;> simp [inheritedOf]
  | cons e rest ih =>
    intro t i b l r h
    cases t with
    | leaf j c => simp [subtreeAt] at h
    | node j c tl tr =>
      cases e with
      | false =>
        have := ih tl i b l r (by simpa [subtreeAt] using h)
        simp only [List.cons_append, inheritedOf, List.append_eq]
        rw [this]
        ring
      | true =>
        have := ih tr i b l r (by simpa [subtreeAt] using h)
        simp only [List.cons_append, inheritedOf, List.append_eq]
        rw [this]
        ring

theorem nodeCost_of_subtree (t : Tree) (p : List Bool) (u : Tree) (nbox : AABB)
    (h : subtreeAt t p = some u) :
    nodeCost t p nbox = area (union u.box nbox) + inheritedOf nbox t p := by
  simp [nodeCost, h]

theorem nodeCost_descendant (nbox : AABB) (hnb : boxValid nbox = true) :
    ∀ (p : List Bool) (t u : Tree) (q : List Bool), boxesValid t = true →
      subtreeAt t p = some u → q ≠ [] → validPath t (p ++ q) = true →
      area nbox + (area (union u.box nbox) - area u.box) + inheritedOf nbox t p ≤
        nodeCost t (p ++ q) nbox := by
  intro p
  induction p with
  | nil =>
    intro t u q ht hsub hq hv
    simp only [subtreeAt, Option.some.injEq] at hsub
    subst hsub
    cases q with
    | nil => exact absurd rfl hq
    | cons d q2 =>
      cases t with
      | leaf i b => simp [validPath] at hv
      | node i b l r =>
        simp only [List.nil_append] at hv ⊢
        obtain ⟨hb, hl, hr⟩ := boxesValid_node i b l r ht
        obtain ⟨w, hw⟩ := subtreeAt_some_of_valid (d :: q2) (.node i b l r) hv
        rw [nodeCost_of_subtree _ _ _ _ hw]
        have h1 : area nbox ≤ area (union w.box nbox) := area_le_union_right _ _ hnb
        cases d with
        | false =>
          have h2 : 0 ≤ inheritedOf nbox l q2 := inheritedOf_nonneg nbox q2 l hl
          simp only [inheritedOf]
          rw [show (Tree.node i b l r).box = b from rfl]
          linarith
        | true =>
          have h2 : 0 ≤ inheritedOf nbox r q2 := inheritedOf_nonneg nbox q2 r hr
          simp only [inheritedOf]
          rw [show (Tree.node i b l r).box = b from rfl]
          linarith
  | cons d rest ih =>
    intro t u q ht hsub hq hv
    cases t with
    | leaf i b => simp [subtreeAt] at hsub
    | node i b l r =>
      obtain ⟨hb, hl, hr⟩ := boxesValid_node i b l r ht
      cases d with
      | false =>
        have hsub2 : subtreeAt l rest = some u := by simpa [subtreeAt] using hsub
        have hv2 : validPath l (rest ++ q) = true := by simpa [validPath] using hv
        have step := ih l u q hl hsub2 hq hv2
        obtain ⟨w, hw⟩ := subtreeAt_some_of_valid (rest ++ q) l hv2
        have hwt : subtreeAt (Tree.node i b l r) ((false :: rest) ++ q) = some w := by
          simpa [subtreeAt] using hw
        rw [nodeCost_of_subtree _ _ _ _ hwt]
        rw [nodeCost_of_subtree _ _ _ _ hw] at step
        simp only [inheritedOf, List.cons_append, List.append_eq]
        linarith
      | true =>
        have hsub2 : subtreeAt r rest = some u := by simpa [subtreeAt] using hsub
        have hv2 : validPath r (rest ++ q) = true := by simpa [validPath] using hv
        have step := ih r u q hr hsub2 hq hv2
        obtain ⟨w, hw⟩ := subtreeAt_some_of_valid (rest ++ q) r hv2
        have hwt : subtreeAt (Tree.node i b l r) ((true :: rest) ++ q) = some w := by
          simpa [subtreeAt] using hw
        rw [nodeCost_of_subtree _ _ _ _ hwt]
        rw [nodeCost_of_subtree _ _ _ _ hw] at step
        simp only [inheritedOf, List.cons_append, List.append_eq]
        linarith

theorem stepBest_snd_le_old (p : List Bool) (c : ℚ) (best : List Bool × ℚ) :
    (stepBest p c best).2 ≤ best.2 := by
  rw [stepBest]
  split_ifs with h
  · exact le_of_lt h
  · exact le_refl _

theorem stepBest_snd_le_new (p : List Bool) (c : ℚ) (best : List Bool × ℚ) :
    (stepBest p c best).2 ≤ c := by
  rw [stepBest]
  split_ifs with h
  · exact le_refl _
  · exact le_of_not_lt h

theorem stepBest_inv (t : Tree) (nbox : AABB) (p : List Bool) (c : ℚ)
    (best : List Bool × ℚ)
    (hb : validPath t best.1 = true ∧ nodeCost t best.1 nbox = best.2)
    (hp : validPath t p = true) (hc : nodeCost t p nbox = c) :
    validPath t (stepBest p c best).1 = true ∧
      nodeCost t (stepBest p c best).1 nbox = (stepBest p c best).2 := by
  rw [stepBest]
  split_ifs
  · exact ⟨hp, hc⟩
  · exact hb

theorem searchLoop_min (nbox : AABB) (t : Tree) (ht : boxesValid t = true)
    (hnb : boxValid nbox = true) :
    ∀ (q : List (Tree × List Bool × ℚ)) (best : List Bool × ℚ),
      (∀ e ∈ q, validPath t e.2.1 = true ∧ subtreeAt t e.2.1 = some e.1 ∧
        inheritedOf nbox t e.2.1 = e.2.2) →
      (validPath t best.1 = true ∧ nodeCost t best.1 nbox = best.2) →
      (∀ p2, validPath t p2 = true →
        (∃ e ∈ q, ∃ r2, p2 = e.2.1 ++ r2) ∨ best.2 ≤ nodeCost t p2 nbox) →
      validPath t (searchLoop nbox q best).1 = true ∧
        nodeCost t (searchLoop nbox q best).1 nbox = (searchLoop nbox q best).2 ∧
        ∀ p2, validPath t p2 = true →
          (searchLoop nbox q best).2 ≤ nodeCost t p2 nbox := by
  intro q best
  induction q, best using searchLoop.induct nbox with
  | case1 best =>
    intro _ hb hcov
    rw [searchLoop]
    refine ⟨hb.1, hb.2, ?_⟩
    intro p2 hp2
    rcases hcov p2 hp2 with ⟨e, he, _⟩ | h
    · exact absurd he (List.not_mem_nil e)
    · exact h
  | case2 best p inh rest a a1 dc best1 ih =>
    intro hq hb hcov
    obtain ⟨hvP, hsubP, hinhP⟩ := hq (.leaf a a1, p, inh) (List.mem_cons_self _ _)
    have hcost : nodeCost t p nbox = area (union (Tree.leaf a a1).box nbox) + inh := by
      rw [nodeCost_of_subtree t p _ nbox hsubP, hinhP]
    rw [searchLoop]
    apply ih
    · intro e he
      exact hq e (List.mem_cons_of_mem _ he)
    · exact stepBest_inv t nbox p _ best hb hvP hcost
    · intro p2 hp2
      rcases hcov p2 hp2 with ⟨e, he, r2, heq⟩ | h
      · rcases List.mem_cons.mp he with he | he
        · subst he
          cases r2 with
          | nil =>
            right
            rw [List.append_nil] at heq
            rw [heq, hcost]
            exact stepBest_snd_le_new p _ best
          | cons e2 r3 =>
            exfalso
            rw [heq, validPath_append (e2 :: r3) p t _ hsubP] at hp2
            simp [validPath] at hp2
        · exact Or.inl ⟨e, he, r2, heq⟩
      · right
        exact le_trans (stepBest_snd_le_old p _ best) h
  | case3 best p inh rest a a1 l r dc best1 enl lb hif ih =>
    intro hq hb hcov
    obtain ⟨hvP, hsubP, hinhP⟩ := hq (.node a a1 l r, p, inh) (List.mem_cons_self _ _)
    have hcost : nodeCost t p nbox =
        area (union (Tree.node a a1 l r).box nbox) + inh := by
      rw [nodeCost_of_subtree t p _ nbox hsubP, hinhP]
    rw [searchLoop, if_pos hif]
    apply ih
    · intro e he
      rcases List.mem_append.mp he with he | he
      · exact hq e (List.mem_cons_of_mem _ he)
      · have hsnoc : ∀ d : Bool, inheritedOf nbox t (p ++ [d]) = inh +
            (area (union (Tree.node a a1 l r).box nbox) -
              area (Tree.node a a1 l r).box) := by
          intro d
          rw [inheritedOf_snoc nbox d p t a a1 l r hsubP, hinhP]
          rfl
        simp only [List.mem_cons, List.not_mem_nil, or_false] at he
        rcases he with he | he <;> subst he
        · have hsl := subtreeAt_child p t a a1 l r hsubP false
          exact ⟨validPath_of_subtreeAt _ t _ hsl, hsl, hsnoc false⟩
        · have hsr := subtreeAt_child p t a a1 l r hsubP true
          exact ⟨validPath_of_subtreeAt _ t _ hsr, hsr, hsnoc true⟩
    · exact stepBest_inv t nbox p _ best hb hvP hcost
    · intro p2 hp2
      rcases hcov p2 hp2 with ⟨e, he, r2, heq⟩ | h
      · rcases List.mem_cons.mp he with he | he
        · subst he
          cases r2 with
          | nil =>
            right
            rw [List.append_nil] at heq
            rw [heq, hcost]
            exact stepBest_snd_le_new p _ best
          | cons e2 r3 =>
            left
            cases e2 with
            | false =>
              refine ⟨(l, p ++ [false], inh + enl), ?_, r3, ?_⟩
              · exact List.mem_append_right _ (List.mem_cons_self _ _)
              · rw [heq]
                simp
            | true =>
              refine ⟨(r, p ++ [true], inh + enl), ?_, r3, ?_⟩
              · refine List.mem_append_right _ ?_
                exact List.mem_cons_of_mem _ (List.mem_cons_self _ _)
              · rw [heq]
                simp
        · exact Or.inl ⟨e, List.mem_append_left _ he, r2, heq⟩
      · right
        exact le_trans (stepBest_snd_le_old p _ best) h
  | case4 best p inh rest a a1 l r dc best1 enl lb hif ih =>
    intro hq hb hcov
    obtain ⟨hvP, hsubP, hinhP⟩ := hq (.node a a1 l r, p, inh) (List.mem_cons_self _ _)
    have hcost : nodeCost t p nbox =
        area (union (Tree.node a a1 l r).box nbox) + inh := by
      rw [nodeCost_of_subtree t p _ nbox hsubP, hinhP]
    rw [searchLoop, if_neg hif]
    apply ih
    · intro e he
      exact hq e (List.mem_cons_of_mem _ he)
    · exact stepBest_inv t nbox p _ best hb hvP hcost
    · intro p2 hp2
      rcases hcov p2 hp2 with ⟨e, he, r2, heq⟩ | h
      · rcases List.mem_cons.mp he with he | he
        · subst he
          cases r2 with
          | nil =>
            right
            rw [List.append_nil] at heq
            rw [heq, hcost]
            exact stepBest_snd_le_new p _ best
          | cons e2 r3 =>
            right
            have hdesc := nodeCost_descendant nbox hnb p t (.node a a1 l r)
              (e2 :: r3) ht hsubP (by simp) (heq ▸ hp2)
            rw [hinhP] at hdesc
            rw [← heq] at hdesc
            exact le_trans (le_of_not_lt hif) hdesc
        · exact Or.inl ⟨e, he, r2, heq⟩
      · right
        exact le_trans (stepBest_snd_le_old p _ best) h

/-- C5: the best-sibling search of add updates the best only on strictly
smaller directCost + inheritedCost, enqueues a candidate's children exactly
when it is internal and the lower bound area(newAABB) + enlargement +
inheritedCost is strictly below the current best, and hence visits every
subtree that could contain a strictly cheaper sibling: the returned best is a
valid node of the tree achieving its returned cost, and no node of the tree
has a strictly smaller cost. -/
theorem c5_best_sibling_search (t : Tree) (nbox : AABB)
    (ht : boxesValid t = true) (hnb : boxValid nbox = true) :
    validPath t (findBestSibling t nbox).1 = true ∧
      nodeCost t (findBestSibling t nbox).1 nbox = (findBestSibling t nbox).2 ∧
      ∀ p, validPath t p = true → (findBestSibling t nbox).2 ≤ nodeCost t p nbox := by
  rw [findBestSibling]
  apply searchLoop_min nbox t ht hnb
  · intro e he
    simp only [List.mem_singleton] at he
    subst he
    refine ⟨by cases t <;> rfl, by cases t <;> rfl, by cases t <;> rfl⟩
  · constructor
    · cases t <;> rfl
    · have hsub : subtreeAt t [] = some t := by cases t <;> rfl
      rw [nodeCost_of_subtree t [] t nbox hsub]
      have hz : inheritedOf nbox t [] = 0 := by cases t <;> rfl
      rw [hz, add_zero]
  · intro p2 _
    exact Or.inl ⟨(t, [], 0), List.mem_singleton_self _, p2, by simp⟩

/-- A concrete valid two-leaf tree instantiating the C5 search theorem. -/
def c5T0 : Tree :=
  .node 2 ⟨0, 0, 3, 1⟩ (.leaf 0 ⟨0, 0, 1, 1⟩) (.leaf 1 ⟨2, 0, 3, 1⟩)

/-- C5 witness: the search-optimality theorem applied to a concrete tree and
box, with its validity hypotheses discharged by evaluation. -/
theorem c5_witness :
    boxesValid c5T0 = true ∧ boxValid ⟨4, 0, 5, 1⟩ = true ∧
      (findBestSibling c5T0 ⟨4, 0, 5, 1⟩).2 ≤ nodeCost c5T0 [] ⟨4, 0, 5, 1⟩ :=
  ⟨by norm_num [c5T0, boxesValid, boxValid],
    by norm_num [boxValid],
    (c5_best_sibling_search c5T0 ⟨4, 0, 5, 1⟩
      (by norm_num [c5T0, boxesValid, boxValid])
      (by norm_num [boxValid])).2.2 [] rfl⟩

/-- Modelled from the spec: make_pair_natural from util.ts (not in the
sources): the canonical unordered encoding pair(min(a,b), max(a,b)) used as
the visited-set key of the broad phase (spec section 4.1). -/
def make_pair_natural (a b : ℕ) : ℕ :=
  Nat.pair (min a b) (max a b)

/-- AABBTree.checkCollision (aabbtree.ts lines 376-423): the descend-both
recursion of the broad phase, threading the emitted pair list and the visited
key set (the source's Set of numbers becomes a list of keys). -/
def checkCollision (a b : Tree) (pairs : List (Tree × Tree)) (checked : List ℕ) :
    List (Tree × Tree) × List ℕ :=
  if make_pair_natural a.id b.id ∈ checked then (pairs, checked)
  else
    let checked1 := make_pair_natural a.id b.id :: checked
    match a, b with
    | .leaf i1 b1, .leaf i2 b2 =>
      (if detectCollisionAABB b1 b2 then pairs ++ [(.leaf i1 b1, .leaf i2 b2)] else pairs,
        checked1)
    | .node i1 b1 l1 r1, .node i2 b2 l2 r2 =>
      let s1 := checkCollision l1 r1 pairs checked1
      let s2 := checkCollision l2 r2 s1.1 s1.2
      if detectCollisionAABB b1 b2 then
        let s3 := checkCollision l1 l2 s2.1 s2.2
        let s4 := checkCollision l1 r2 s3.1 s3.2
        let s5 := checkCollision r1 l2 s4.1 s4.2
        checkCollision r1 r2 s5.1 s5.2
      else s2
    | .leaf i1 b1, .node i2 b2 l2 r2 =>
      let s1 := checkCollision l2 r2 pairs checked1
      if detectCollisionAABB b1 b2 then
        let s2 := checkCollision (.leaf i1 b1) l2 s1.1 s1.2
        checkCollision (.leaf i1 b1) r2 s2.1 s2.2
      else s1
    | .node i1 b1 l1 r1, .leaf i2 b2 =>
      let s1 := checkCollision l1 r1 pairs checked1
      if detectCollisionAABB b1 b2 then
        let s2 := checkCollision (.leaf i2 b2) l1 s1.1 s1.2
        checkCollision (.leaf i2 b2) r1 s2.1 s2.2
      else s1
termination_by a.size + b.size
decreasing_by all_goals (simp [Tree.size]; try omega)

/-- AABBTree.getCollisionPairs (aabbtree.ts lines 361-374): on an internal
root, run checkCollision on its two children with an empty output list and an
empty visited set; an empty tree or a single-leaf root yields no pairs. -/
def getCollisionPairs : Option Tree → List (Tree × Tree)
  | none => []
  | some (.leaf _ _) => []
  | some (.node _ _ l r) => (checkCollision l r [] []).1

/-- The canonical unordered key of an emitted pair. -/
def pairKey (e : Tree × Tree) : ℕ := make_pair_natural e.1.id e.2.id

/-- Both members of the pair are leaves and their AABBs overlap. -/
def goodPair (e : Tree × Tree) : Bool :=
  e.1.isLeaf && e.2.isLeaf && detectCollisionAABB e.1.box e.2.box

/-- No two entries of the list share their unordered id key: no unordered
pair of leaves appears twice. -/
def distinctKeys : List (Tree × Tree) → Bool
  | [] => true
  | e :: rest => rest.all (fun f => pairKey f != pairKey e) && distinctKeys rest

theorem distinctKeys_snoc (xs : List (Tree × Tree)) (x : Tree × Tree)
    (hd : distinctKeys xs = true) (hx : ∀ e ∈ xs, pairKey e ≠ pairKey x) :
    distinctKeys (xs ++ [x]) = true := by
  induction xs with
  | nil => simp [distinctKeys]
  | cons e rest ih =>
    simp only [distinctKeys, Bool.and_eq_true, List.all_eq_true] at hd
    simp only [List.cons_append, distinctKeys, Bool.and_eq_true, List.all_eq_true]
    refine ⟨?_, ih hd.2 fun f hf => hx f (List.mem_cons_of_mem _ hf)⟩
    intro f hf
    rcases List.mem_append.mp hf with hf | hf
    · exact hd.1 f hf
    · simp only [List.mem_singleton] at hf
      subst hf
      exact bne_iff_ne.mpr (hx e (List.mem_cons_self _ _)).symm

theorem checkCollision_inv (a b : Tree) :
    ∀ (pairs : List (Tree × Tree)) (checked : List ℕ),
      (∀ e ∈ pairs, goodPair e = true ∧ pairKey e ∈ checked) →
      distinctKeys pairs = true →
      (∀ e ∈ (checkCollision a b pairs checked).1,
          goodPair e = true ∧ pairKey e ∈ (checkCollision a b pairs checked).2) ∧
        distinctKeys (checkCollision a b pairs checked).1 = true ∧
        ∀ k ∈ checked, k ∈ (checkCollision a b pairs checked).2 := by
  intro pairs checked
  induction a, b, pairs, checked using checkCollision.induct with
  | case1 a b pairs checked hmem =>
    intro hp hd
    rw [checkCollision, if_pos hmem]
    exact ⟨hp, hd, fun k hk => hk⟩
  | case2 pairs checked i1 b1 i2 b2 hmem =>
    intro hp hd
    rw [checkCollision, if_neg hmem]
    simp only []
    split_ifs with hov
    · refine ⟨?_, ?_, ?_⟩
      · intro e he
        rcases List.mem_append.mp he with he | he
        · obtain ⟨hg, hk⟩ := hp e he
          exact ⟨hg, List.mem_cons_of_mem _ hk⟩
        · simp only [List.mem_singleton] at he
          subst he
          refine ⟨?_, List.mem_cons_self _ _⟩
          simp [goodPair, Tree.isLeaf, Tree.box, hov]
      · apply distinctKeys_snoc _ _ hd
        intro e he hkey
        apply hmem
        have hin : pairKey (Tree.leaf i1 b1, Tree.leaf i2 b2) ∈ checked :=
          hkey ▸ (hp e he).2
        exact hin
      · exact fun k hk => List.mem_cons_of_mem _ hk
    · refine ⟨?_, hd, fun k hk => List.mem_cons_of_mem _ hk⟩
      intro e he
      obtain ⟨hg, hk⟩ := hp e he
      exact ⟨hg, List.mem_cons_of_mem _ hk⟩
  | case3 pairs checked i1 b1 l1 r1 i2 b2 l2 r2 hov hmem checked1 s1 s2 s3 s4 s5
      ih1 ih1b ih2 ih2b ih3 ih3b ih4 ih4b ih5 ih5b ih6 =>
    intro hp hd
    rw [checkCollision, if_neg hmem]
    simp only []
    rw [if_pos hov]
    have hp1 : ∀ e ∈ pairs, goodPair e = true ∧ pairKey e ∈ checked1 :=
      fun e he => ⟨(hp e he).1, List.mem_cons_of_mem _ (hp e he).2⟩
    have H1 := ih1 hp1 hd
    have H2 := ih2 H1.1 H1.2.1
    have H3 := ih3 H2.1 H2.2.1
    have H4 := ih4 H3.1 H3.2.1
    have H5 := ih5 H4.1 H4.2.1
    have H6 := ih6 H5.1 H5.2.1
    refine ⟨H6.1, H6.2.1, ?_⟩
    intro k hk
    exact H6.2.2 _ (H5.2.2 _ (H4.2.2 _ (H3.2.2 _ (H2.2.2 _ (H1.2.2 _
      (List.mem_cons_of_mem _ hk))))))
  | case4 pairs checked i1 b1 l1 r1 i2 b2 l2 r2 hov hmem checked1 s1 ih1 ih1b ih2 =>
    intro hp hd
    rw [checkCollision, if_neg hmem]
    simp only []
    rw [if_neg hov]
    have hp1 : ∀ e ∈ pairs, goodPair e = true ∧ pairKey e ∈ checked1 :=
      fun e he => ⟨(hp e he).1, List.mem_cons_of_mem _ (hp e he).2⟩
    have H1 := ih1 hp1 hd
    have H2 := ih2 H1.1 H1.2.1
    refine ⟨H2.1, H2.2.1, ?_⟩
    intro k hk
    exact H2.2.2 _ (H1.2.2 _ (List.mem_cons_of_mem _ hk))
  | case5 pairs checked i1 b1 i2 b2 l2 r2 hov hmem checked1 s1 s2 ih1 ih1b ih2 ih2b ih3 =>
    intro hp hd
    rw [checkCollision, if_neg hmem]
    simp only []
    rw [if_pos hov]
    have hp1 : ∀ e ∈ pairs, goodPair e = true ∧ pairKey e ∈ checked1 :=
      fun e he => ⟨(hp e he).1, List.mem_cons_of_mem _ (hp e he).2⟩
    have H1 := ih1 hp1 hd
    have H2 := ih2 H1.1 H1.2.1
    have H3 := ih3 H2.1 H2.2.1
    refine ⟨H3.1, H3.2.1, ?_⟩
    intro k hk
    exact H3.2.2 _ (H2.2.2 _ (H1.2.2 _ (List.mem_cons_of_mem _ hk)))
  | case6 pairs checked i1 b1 i2 b2 l2 r2 hov hmem checked1 ih1 =>
    intro hp hd
    rw [checkCollision, if_neg hmem]
    simp only []
    rw [if_neg hov]
    have hp1 : ∀ e ∈ pairs, goodPair e = true ∧ pairKey e ∈ checked1 :=
      fun e he => ⟨(hp e he).1, List.mem_cons_of_mem _ (hp e he).2⟩
    have H1 := ih1 hp1 hd
    refine ⟨H1.1, H1.2.1, ?_⟩
    intro k hk
    exact H1.2.2 _ (List.mem_cons_of_mem _ hk)
  | case7 pairs checked i1 b1 l1 r1 i2 b2 hov hmem checked1 s1 s2 ih1 ih1b ih2 ih2b ih3 =>
    intro hp hd
    rw [checkCollision, if_neg hmem]
    simp only []
    rw [if_pos hov]
    have hp1 : ∀ e ∈ pairs, goodPair e = true ∧ pairKey e ∈ checked1 :=
      fun e he => ⟨(hp e he).1, List.mem_cons_of_mem _ (hp e he).2⟩
    have H1 := ih1 hp1 hd
    have H2 := ih2 H1.1 H1.2.1
    have H3 := ih3 H2.1 H2.2.1
    refine ⟨H3.1, H3.2.1, ?_⟩
    intro k hk
    exact H3.2.2 _ (H2.2.2 _ (H1.2.2 _ (List.mem_cons_of_mem _ hk)))
  | case8 pairs checked i1 b1 l1 r1 i2 b2 hov hmem checked1 ih1 =>
    intro hp hd
    rw [checkCollision, if_neg hmem]
    simp only []
    rw [if_neg hov]
    have hp1 : ∀ e ∈ pairs, goodPair e = true ∧ pairKey e ∈ checked1 :=
      fun e he => ⟨(hp e he).1, List.mem_cons_of_mem _ (hp e he).2⟩
    have H1 := ih1 hp1 hd
    refine ⟨H1.1, H1.2.1, ?_⟩
    intro k hk
    exact H1.2.2 _ (List.mem_cons_of_mem _ hk)

/-- C6: getCollisionPairs emits each unordered pair of distinct leaves at most
once — no unordered leaf-id key appears twice in the output — and every
emitted pair consists of two leaves whose AABBs overlap. -/
theorem c6_collision_pairs (t : Option Tree) :
    distinctKeys (getCollisionPairs t) = true ∧
      (getCollisionPairs t).all goodPair = true := by
  cases t with
  | none => exact ⟨rfl, rfl⟩
  | some t =>
    cases t with
    | leaf i b => exact ⟨rfl, rfl⟩
    | node i b l r =>
      have H := checkCollision_inv l r [] []
        (by intro e he; exact absurd he (List.not_mem_nil e)) rfl
      refine ⟨H.2.1, ?_⟩
      rw [List.all_eq_true]
      intro e he
      exact (H.1 e he).1

/-- Modelled from the spec: the 2-vector math primitive (math.ts, not in the
sources; spec section 2), over exact rationals. -/
structure Vec2 where
  x : ℚ
  y : ℚ
deriving DecidableEq, Repr

/-- Vector2.add / addV. -/
def Vec2.add (a b : Vec2) : Vec2 := ⟨a.x + b.x, a.y + b.y⟩

/-- Vector2.sub / subV. -/
def Vec2.sub (a b : Vec2) : Vec2 := ⟨a.x - b.x, a.y - b.y⟩

/-- Vector2.mul / mulS by a scalar. -/
def Vec2.mul (a : Vec2) (s : ℚ) : Vec2 := ⟨a.x * s, a.y * s⟩

/-- Vector2.dot. -/
def Vec2.dot (a b : Vec2) : ℚ := a.x * b.x + a.y * b.y

/-- Vector2.cross: the 2D scalar cross product a.x·b.y − a.y·b.x. -/
def Vec2.cross (a b : Vec2) : ℚ := a.x * b.y - a.y * b.x

/-- Vector2.inverted: componentwise negation. -/
def Vec2.inverted (a : Vec2) : Vec2 := ⟨-a.x, -a.y⟩

/-- Util.cross of a scalar and a vector: s × v = (−s·v.y, s·v.x). -/
def scross (s : ℚ) (v : Vec2) : Vec2 := ⟨-s * v.y, s * v.x⟩

/-- The body state a joint reads and writes (rigidbody.ts, not in the
sources; spec section 3): the velocities and the cached inverse mass and
inverse inertia. -/
structure Body where
  linearVelocity : Vec2
  angularVelocity : ℚ
  inverseMass : ℚ
  inverseInertia : ℚ
deriving DecidableEq, Repr

/-- The prismatic joint solver state (prismatic.ts): the two bodies, the line
tangent t, the anchor arms ra and rb, the unit axis u, the 2x2 effective-mass
matrix, the bias vector, the solver scalars and the accumulated impulse. -/
structure PrismaticJoint where
  bodyA : Body
  bodyB : Body
  t : Vec2
  ra : Vec2
  rb : Vec2
  u : Vec2
  m00 : ℚ
  m01 : ℚ
  m10 : ℚ
  m11 : ℚ
  bias : Vec2
  beta : ℚ
  gamma : ℚ
  impulseSum : Vec2
deriving DecidableEq, Repr

/-- PrismaticJoint.applyImpulse (prismatic.ts lines 128-143), translated
statement by statement.  Note: the source omits the lambda0 factor on the two
angular-velocity updates of the line row (lines 137 and 139). -/
def PrismaticJoint.applyImpulse (j : PrismaticJoint) (lambda : Vec2) : PrismaticJoint :=
  let lambda0 := lambda.x
  let lambda1 := lambda.y
  let bA1 := { j.bodyA with
    linearVelocity := j.bodyA.linearVelocity.sub (j.t.mul (lambda0 * j.bodyA.inverseMass)) }
  let bA2 := { bA1 with
    angularVelocity := bA1.angularVelocity - (j.ra.add j.u).cross j.t * bA1.inverseInertia }
  let bB1 := { j.bodyB with
    linearVelocity := j.bodyB.linearVelocity.add (j.t.mul (lambda0 * j.bodyB.inverseMass)) }
  let bB2 := { bB1 with
    angularVelocity := bB1.angularVelocity + j.rb.cross j.t * bB1.inverseInertia }
  let bA3 := { bA2 with
    angularVelocity := bA2.angularVelocity - lambda1 * bA2.inverseInertia }
  let bB3 := { bB2 with
    angularVelocity := bB2.angularVelocity + lambda1 * bB2.inverseInertia }
  { j with bodyA := bA3, bodyB := bB3 }

/-- The update the spec words for applyImpulse: each referenced body velocity
changes by exactly M⁻¹·Jᵀ·λ for the prismatic Jacobian
J = [[−t, −(ra+u)×t, t, rb×t], [0, −1, 0, 1]]. -/
def PrismaticJoint.applyImpulseSpec (j : PrismaticJoint) (lambda : Vec2) : PrismaticJoint :=
  let lambda0 := lambda.x
  let lambda1 := lambda.y
  let bA := { j.bodyA with
    linearVelocity := j.bodyA.linearVelocity.sub (j.t.mul (lambda0 * j.bodyA.inverseMass)),
    angularVelocity := j.bodyA.angularVelocity -
      ((j.ra.add j.u).cross j.t * lambda0 + lambda1) * j.bodyA.inverseInertia }
  let bB := { j.bodyB with
    linearVelocity := j.bodyB.linearVelocity.add (j.t.mul (lambda0 * j.bodyB.inverseMass)),
    angularVelocity := j.bodyB.angularVelocity +
      (j.rb.cross j.t * lambda0 + lambda1) * j.bodyB.inverseInertia }
  { j with bodyA := bA, bodyB := bB }

/-- The line joint solver state (class LineJoint of the compiled sources). -/
structure LineJoint where
  bodyA : Body
  bodyB : Body
  t : Vec2
  ra : Vec2
  rb : Vec2
  u : Vec2
  m : ℚ
  bias : ℚ
  beta : ℚ
  gamma : ℚ
  impulseSum : ℚ
deriving DecidableEq, Repr

/-- LineJoint.applyImpulse (LineJoint, lines 98-105 of its source): the
lambda factor is again missing on both angular-velocity updates. -/
def LineJoint.applyImpulse (j : LineJoint) (lambda : ℚ) : LineJoint :=
  let bA1 := { j.bodyA with
    linearVelocity := j.bodyA.linearVelocity.sub (j.t.mul (lambda * j.bodyA.inverseMass)) }
  let bA2 := { bA1 with
    angularVelocity := bA1.angularVelocity - (j.ra.add j.u).cross j.t * bA1.inverseInertia }
  let bB1 := { j.bodyB with
    linearVelocity := j.bodyB.linearVelocity.add (j.t.mul (lambda * j.bodyB.inverseMass)) }
  let bB2 := { bB1 with
    angularVelocity := bB1.angularVelocity + j.rb.cross j.t * bB1.inverseInertia }
  { j with bodyA := bA2, bodyB := bB2 }

/-- A joint state with unit inverse mass and inertia on both bodies, all
velocities zero, t = (1,0), rb = (0,1), ra = u = 0. -/
def c2J0 : PrismaticJoint :=
  { bodyA := ⟨⟨0, 0⟩, 0, 1, 1⟩, bodyB := ⟨⟨0, 0⟩, 0, 1, 1⟩,
    t := ⟨1, 0⟩, ra := ⟨0, 0⟩, rb := ⟨0, 1⟩, u := ⟨0, 0⟩,
    m00 := 0, m01 := 0, m10 := 0, m11 := 0,
    bias := ⟨0, 0⟩, beta := 0, gamma := 0, impulseSum := ⟨0, 0⟩ }

/-- The line-joint state with the same data. -/
def c2L0 : LineJoint :=
  { bodyA := ⟨⟨0, 0⟩, 0, 1, 1⟩, bodyB := ⟨⟨0, 0⟩, 0, 1, 1⟩,
    t := ⟨1, 0⟩, ra := ⟨0, 0⟩, rb := ⟨0, 1⟩, u := ⟨0, 0⟩,
    m := 0, bias := 0, beta := 0, gamma := 0, impulseSum := 0 }

/-- C2: the claim fails on the code.  Applying the zero impulse through
PrismaticJoint.applyImpulse and LineJoint.applyImpulse changes bodyB's
angular velocity from 0 to rb×t·invInertia = −1 — the source omits the λ
factor on the angular updates — whereas the claimed update M⁻¹·Jᵀ·λ is the
identity at λ = 0, as the spec-side update confirms. -/
theorem c2_zero_impulse_changes_velocity :
    (c2J0.applyImpulse ⟨0, 0⟩).bodyB.angularVelocity = -1 ∧
      c2J0.applyImpulseSpec ⟨0, 0⟩ = c2J0 ∧
      (c2L0.applyImpulse 0).bodyB.angularVelocity = -1 := by
  refine ⟨?_, ?_, ?_⟩ <;>
    norm_num [c2J0, c2L0, PrismaticJoint.applyImpulse, PrismaticJoint.applyImpulseSpec,
      LineJoint.applyImpulse, Vec2.add, Vec2.sub, Vec2.mul, Vec2.cross,
      PrismaticJoint.mk.injEq, Body.mk.injEq, Vec2.mk.injEq]

/-- PrismaticJoint.solve's velocity-level violation Jv (prismatic.ts lines
112-118), translated exactly: the source adds this.gamma into the first
component and uses rb (not ra) in bodyA's angular entry. -/
def PrismaticJoint.solveJv (j : PrismaticJoint) : Vec2 :=
  ⟨j.t.dot j.bodyB.linearVelocity + j.rb.cross j.t * j.bodyB.angularVelocity
      - (j.t.dot j.bodyA.linearVelocity +
          (j.rb.add j.u).cross j.t * j.bodyA.angularVelocity)
      + j.gamma,
    j.bodyB.angularVelocity - j.bodyA.angularVelocity⟩

/-- The Jacobian applied to the current body velocities — J·v with no extra
additive terms — for the prismatic rows
J = [[−t, −(ra+u)×t, t, rb×t], [0, −1, 0, 1]] (the formula the claim, the
spec and the source's own comment state). -/
def PrismaticJoint.jacobianTimesV (j : PrismaticJoint) : Vec2 :=
  ⟨j.t.dot j.bodyB.linearVelocity + j.rb.cross j.t * j.bodyB.angularVelocity
      - (j.t.dot j.bodyA.linearVelocity +
          (j.ra.add j.u).cross j.t * j.bodyA.angularVelocity),
    j.bodyB.angularVelocity - j.bodyA.angularVelocity⟩

/-- PrismaticJoint.solve (prismatic.ts lines 106-126): λ = M_eff·(−(Jv +
bias + γ·impulseSum)), applied through applyImpulse and accumulated exactly
when warm starting is enabled. -/
def PrismaticJoint.solve (j : PrismaticJoint) (warmStarting : Bool) : PrismaticJoint :=
  let jv := j.solveJv
  let v := ((jv.add j.bias).add (j.impulseSum.mul j.gamma)).inverted
  let lambda : Vec2 := ⟨j.m00 * v.x + j.m01 * v.y, j.m10 * v.x + j.m11 * v.y⟩
  let j1 := j.applyImpulse lambda
  match warmStarting with
  | true => { j1 with impulseSum := j1.impulseSum.add lambda }
  | false => j1

/-- A prismatic state with all velocities zero and γ = 5. -/
def c3J0 : PrismaticJoint :=
  { bodyA := ⟨⟨0, 0⟩, 0, 1, 1⟩, bodyB := ⟨⟨0, 0⟩, 0, 1, 1⟩,
    t := ⟨1, 0⟩, ra := ⟨0, 0⟩, rb := ⟨0, 1⟩, u := ⟨0, 0⟩,
    m00 := 0, m01 := 0, m10 := 0, m11 := 0,
    bias := ⟨0, 0⟩, beta := 0, gamma := 5, impulseSum := ⟨0, 0⟩ }

/-- A prismatic state with γ = 0 but bodyA spinning (ωA = 1) and ra ≠ rb. -/
def c3J1 : PrismaticJoint :=
  { bodyA := ⟨⟨0, 0⟩, 1, 1, 1⟩, bodyB := ⟨⟨0, 0⟩, 0, 1, 1⟩,
    t := ⟨1, 0⟩, ra := ⟨0, 2⟩, rb := ⟨0, 1⟩, u := ⟨0, 0⟩,
    m00 := 0, m01 := 0, m10 := 0, m11 := 0,
    bias := ⟨0, 0⟩, beta := 0, gamma := 0, impulseSum := ⟨0, 0⟩ }

/-- C3: the claim fails on the code.  With all velocities zero and γ = 5 the
prismatic solve computes Jv = (5, 0) while J·v = (0, 0): γ is an extra
additive term in the violation.  With γ = 0 and bodyA spinning, solve
computes Jv = (1, −1) while J·v = (2, −1): bodyA's angular entry uses rb
instead of ra. -/
theorem c3_solve_jv_extra_terms :
    c3J0.solveJv = ⟨5, 0⟩ ∧ c3J0.jacobianTimesV = ⟨0, 0⟩ ∧
      c3J1.solveJv = ⟨1, -1⟩ ∧ c3J1.jacobianTimesV = ⟨2, -1⟩ := by
  refine ⟨?_, ?_, ?_, ?_⟩ <;>
    norm_num [c3J0, c3J1, PrismaticJoint.solveJv, PrismaticJoint.jacobianTimesV,
      Vec2.add, Vec2.dot, Vec2.cross, Vec2.mk.injEq]

/-- LineJoint.prepare's effective-mass assembly (LineJoint, lines 75-78 of
its source), translated exactly: the bodyA terms are subtracted rather than
added and the angular Jacobian entries are not squared. -/
def LineJoint.prepareK (j : LineJoint) : ℚ :=
  j.bodyB.inverseMass + j.rb.cross j.t * j.bodyB.inverseInertia
    - (j.bodyA.inverseMass + (j.ra.add j.u).cross j.t * j.bodyA.inverseInertia)
    + j.gamma

/-- The one-row effective mass the spec and the claim state:
J·M⁻¹·Jᵀ + γ = invMassA + invMassB + invInertiaA·sA² + invInertiaB·sB² + γ
with sA, sB the angular Jacobian entries. -/
def oneRowEffectiveK (invMassA invInertiaA invMassB invInertiaB sA sB gamma : ℚ) : ℚ :=
  invMassA + invMassB + invInertiaA * sA ^ 2 + invInertiaB * sB ^ 2 + gamma

/-- PrismaticJoint.prepare's effective-mass assembly (prismatic.ts lines
80-92): the 2x2 matrix J·M⁻¹·Jᵀ + γ·I of the line and angle rows, as the
tuple (k00, k01, k10, k11). -/
def PrismaticJoint.prepareK (j : PrismaticJoint) : ℚ × ℚ × ℚ × ℚ :=
  let sa := (j.ra.add j.u).cross j.t
  let sb := j.rb.cross j.t
  (j.bodyA.inverseMass + sa * sa * j.bodyA.inverseInertia
      + j.bodyB.inverseMass + sb * sb * j.bodyB.inverseInertia + j.gamma,
    sa * j.bodyA.inverseInertia + sb * j.bodyB.inverseInertia,
    sa * j.bodyA.inverseInertia + sb * j.bodyB.inverseInertia,
    j.bodyA.inverseInertia + j.bodyB.inverseInertia + j.gamma)

/-- A line joint whose bodyA has inverse mass 1 and everything else zero. -/
def c4L0 : LineJoint :=
  { bodyA := ⟨⟨0, 0⟩, 0, 1, 0⟩, bodyB := ⟨⟨0, 0⟩, 0, 0, 0⟩,
    t := ⟨1, 0⟩, ra := ⟨0, 0⟩, rb := ⟨0, 0⟩, u := ⟨0, 0⟩,
    m := 0, bias := 0, beta := 0, gamma := 0, impulseSum := 0 }

/-- C4: the claim fails on the code.  The line joint assembles its effective
mass as invMassB + sB·invInertiaB − (invMassA + sA·invInertiaA) + γ, which at
invMassA = 1 (all else 0) gives −1, while the claimed one-row formula
invMassA + invMassB + invInertiaA·sA² + invInertiaB·sB² + γ gives 1. -/
theorem c4_line_effective_mass :
    c4L0.prepareK = -1 ∧
      oneRowEffectiveK c4L0.bodyA.inverseMass c4L0.bodyA.inverseInertia
        c4L0.bodyB.inverseMass c4L0.bodyB.inverseInertia
        ((c4L0.ra.add c4L0.u).cross c4L0.t) (c4L0.rb.cross c4L0.t) c4L0.gamma = 1 := by
  constructor <;>
    norm_num [c4L0, LineJoint.prepareK, oneRowEffectiveK, Vec2.add, Vec2.cross]

/-- Body classification (rigidbody.ts Type, not in the sources; the spec's
Static/Dynamic classification). -/
inductive RBType where
  | Static
  | Dynamic
deriving DecidableEq, Repr

/-- The two rejections thrown by the prismatic and line constructors. -/
inductive CtorError where
  | bothStatic
  | staticBodyB
deriving DecidableEq, Repr

/-- The body-type checks of PrismaticJoint's constructor (prismatic.ts lines
32-35): both bodies static throws, then a static bodyB throws with the
direction to pass the static body as bodyA. -/
def prismaticCtorCheck (aType bType : RBType) : Except CtorError Unit :=
  if aType = RBType.Static ∧ bType = RBType.Static then .error .bothStatic
  else if bType = RBType.Static then .error .staticBodyB
  else .ok ()

/-- The body-type checks of LineJoint's constructor (lines 39-42 of its
source), identical in structure. -/
def lineCtorCheck (aType bType : RBType) : Except CtorError Unit :=
  if aType = RBType.Static ∧ bType = RBType.Static then .error .bothStatic
  else if bType = RBType.Static then .error .staticBodyB
  else .ok ()

/-- Whether a constructor check succeeded. -/
def ctorOk : Except CtorError Unit → Bool
  | .ok _ => true
  | .error _ => false

/-- C7 counterexample: a prismatic (and line) joint connecting a dynamic
bodyA to a static bodyB is NOT constructed successfully — the constructor
throws synchronously — contradicting the claim that a static body is
accepted in either role. -/
theorem c7_counterexample :
    prismaticCtorCheck RBType.Dynamic RBType.Static = .error .staticBodyB ∧
      lineCtorCheck RBType.Dynamic RBType.Static = .error .staticBodyB := by
  constructor <;> rfl

/-- C7 (amended): constructing a prismatic or line joint succeeds exactly
when bodyB is dynamic: two static bodies are rejected, and a static body is
accepted only in the bodyA role (a static bodyB throws synchronously, with no
joint produced and no body mutated).  For a joint whose bodyA is static, its
zero inverse mass and zero inverse inertia enter the effective-mass matrix as
zero, leaving only the bodyB terms and the softness γ. -/
theorem c7_static_body_rules (aType bType : RBType) :
    (ctorOk (prismaticCtorCheck aType bType) = true ↔ bType = RBType.Dynamic) ∧
      (ctorOk (lineCtorCheck aType bType) = true ↔ bType = RBType.Dynamic) ∧
      (∀ j : PrismaticJoint, j.bodyA.inverseMass = 0 → j.bodyA.inverseInertia = 0 →
        j.prepareK = (j.bodyB.inverseMass +
            (j.rb.cross j.t) * (j.rb.cross j.t) * j.bodyB.inverseInertia + j.gamma,
          (j.rb.cross j.t) * j.bodyB.inverseInertia,
          (j.rb.cross j.t) * j.bodyB.inverseInertia,
          j.bodyB.inverseInertia + j.gamma)) := by
  refine ⟨?_, ?_, ?_⟩
  · cases aType <;> cases bType <;> simp [prismaticCtorCheck, ctorOk]
  · cases aType <;> cases bType <;> simp [lineCtorCheck, ctorOk]
  · intro j h1 h2
    simp only [PrismaticJoint.prepareK, h1, h2, Prod.mk.injEq]
    refine ⟨by ring, by ring, by ring, by ring⟩

/-- A prismatic joint whose bodyA carries zero inverse mass and inertia (a
static bodyA) and whose bodyB is dynamic. -/
def c7J0 : PrismaticJoint :=
  { bodyA := ⟨⟨0, 0⟩, 0, 0, 0⟩, bodyB := ⟨⟨0, 0⟩, 0, 1, 1⟩,
    t := ⟨1, 0⟩, ra := ⟨0, 0⟩, rb := ⟨0, 1⟩, u := ⟨0, 0⟩,
    m00 := 0, m01 := 0, m10 := 0, m11 := 0,
    bias := ⟨0, 0⟩, beta := 0, gamma := 7, impulseSum := ⟨0, 0⟩ }

/-- C7 witness: the amended theorem applied to the static-bodyA/dynamic-bodyB
combination and to a concrete joint with a static bodyA. -/
theorem c7_witness :
    ctorOk (prismaticCtorCheck RBType.Static RBType.Dynamic) = true ∧
      c7J0.prepareK = (c7J0.bodyB.inverseMass +
          (c7J0.rb.cross c7J0.t) * (c7J0.rb.cross c7J0.t) * c7J0.bodyB.inverseInertia +
            c7J0.gamma,
        (c7J0.rb.cross c7J0.t) * c7J0.bodyB.inverseInertia,
        (c7J0.rb.cross c7J0.t) * c7J0.bodyB.inverseInertia,
        c7J0.bodyB.inverseInertia + c7J0.gamma) :=
  ⟨(c7_static_body_rules RBType.Static RBType.Dynamic).1.mpr rfl,
    (c7_static_body_rules RBType.Static RBType.Dynamic).2.2 c7J0 rfl rfl⟩

/-- Modelled from the spec: Util.clamp (util.ts, not in the sources): clamp x
into [lo, hi]. -/
def clamp (x lo hi : ℚ) : ℚ := max lo (min x hi)

/-- The joint-constructor solver-scalar computation shared by GrabJoint
(grab.ts lines 28-38), PrismaticJoint (prismatic.ts lines 52-62), LineJoint
and WeldJoint, translated statement by statement: reassign mass from bodyB
when the override is nonpositive, reassign frequency to 0.01 when
nonpositive, clamp the damping ratio into [0, 1], then build the
spring-damper constants.  `pi` stands for the float constant Math.PI and `h`
for the fixed time step (Settings.dt / Settings.fixedDeltaTime; settings.ts
is not in the sources).  Returns (beta, gamma). -/
def jointScalars (pi f zeta mass bmass h : ℚ) : ℚ × ℚ :=
  let mass := if mass ≤ 0 then bmass else mass
  let f := if f ≤ 0 then 1 / 100 else f
  let zeta := clamp zeta 0 1
  let omega := 2 * pi * f
  let d := 2 * mass * zeta * omega
  let k := mass * omega * omega
  (h * k / (d + h * k), 1 / ((d + h * k) * h))

/-- The scalars exactly as the claim words them: β = h·k/(d + h·k) and
γ = 1/((d + h·k)·h), with ω = 2π·f′, d = 2·m·ζ′·ω, k = m·ω², where f′ is 0.01
when f ≤ 0 and f otherwise, ζ′ is ζ clamped into [0, 1], and m is the mass
override when it is positive and bodyB's mass otherwise. -/
def claimScalars (pi f zeta mass bmass h : ℚ) : ℚ × ℚ :=
  let m := if 0 < mass then mass else bmass
  let fp := if f ≤ 0 then 1 / 100 else f
  let zp := clamp zeta 0 1
  let omega := 2 * pi * fp
  let d := 2 * m * zp * omega
  let k := m * omega ^ 2
  (h * k / (d + h * k), 1 / ((d + h * k) * h))

/-- C8: for every joint constructor input, the computed solver scalars equal
the claimed formulas β = h·k/(d + h·k) and γ = 1/((d + h·k)·h) with ω = 2π·f′,
d = 2·m·ζ′·ω, k = m·ω², f′ = 0.01 when f ≤ 0 else f, ζ′ = ζ clamped into
[0, 1], and m = the override when positive, bodyB's mass otherwise. -/
theorem c8_joint_scalars (pi f zeta mass bmass h : ℚ) :
    jointScalars pi f zeta mass bmass h = claimScalars pi f zeta mass bmass h := by
  simp only [jointScalars, claimScalars]
  have hm : (if mass ≤ 0 then bmass else mass) = (if 0 < mass then mass else bmass) := by
    split_ifs with h1 h2
    · linarith
    · rfl
    · rfl
    · linarith
  rw [hm, Prod.mk.injEq]
  constructor <;> ring_nf

/-- Collider classification (collider.js Type): Ground or Normal. -/
inductive ColliderType where
  | Ground
  | Normal
deriving DecidableEq, Repr

/-- The exact value of the float constant Number.MAX_VALUE, as a rational. -/
def MAXV : ℚ := (2 ^ 53 - 1) * 2 ^ 971

/-- The collider's mass/inertia state with the cached inverses
(collider.js). -/
structure Collider where
  mass : ℚ
  invMass : ℚ
  inertia : ℚ
  invInertia : ℚ
deriving DecidableEq, Repr

/-- The mass setter (collider.js lines 33-36): clamp into [0, MAX_VALUE] and
cache the inverse of the STORED value (0 when it is 0). -/
def setMass (c : Collider) (m : ℚ) : Collider :=
  let m1 := clamp m 0 MAXV
  { c with mass := m1, invMass := if m1 = 0 then 0 else 1 / m1 }

/-- The inertia setter (collider.js lines 43-46): clamp into [0, MAX_VALUE]
but cache 1/i of the RAW argument i (0 when the stored value is 0). -/
def setInertia (c : Collider) (i : ℚ) : Collider :=
  let i1 := clamp i 0 MAXV
  { c with inertia := i1, invInertia := if i1 = 0 then 0 else 1 / i }

/-- The collider constructor's mass initialisation (collider.js lines 16-29):
a Ground collider receives MAX_VALUE mass and inertia through the setters;
otherwise the fields are left unset (0 here). -/
def colliderInit (ty : ColliderType) : Collider :=
  if ty = ColliderType.Ground then setInertia (setMass ⟨0, 0, 0, 0⟩ MAXV) MAXV
  else ⟨0, 0, 0, 0⟩

/-- C9: the claim fails on the code.  A Ground (static) collider stores mass
MAX_VALUE, so its cached inverse mass is 1/MAX_VALUE — nonzero, not the zero
the spec requires of static bodies.  Moreover the inertia setter caches the
reciprocal of the RAW argument: assigning inertia 2·MAX_VALUE stores the
clamped MAX_VALUE but caches 1/(2·MAX_VALUE), leaving the cache out of sync
with the stored value. -/
theorem c9_collider_divergence :
    (colliderInit .Ground).invMass = 1 / MAXV ∧
      (colliderInit .Ground).invMass ≠ 0 ∧
      (setInertia (colliderInit .Ground) (2 * MAXV)).inertia = MAXV ∧
      (setInertia (colliderInit .Ground) (2 * MAXV)).invInertia = 1 / (2 * MAXV) ∧
      (setInertia (colliderInit .Ground) (2 * MAXV)).invInertia ≠
        1 / (setInertia (colliderInit .Ground) (2 * MAXV)).inertia := by
  have hM : (0 : ℚ) < MAXV := by norm_num [MAXV]
  have hclM : clamp MAXV 0 MAXV = MAXV := by
    rw [clamp, min_self]
    exact max_eq_right hM.le
  have hcl2 : clamp (2 * MAXV) 0 MAXV = MAXV := by
    rw [clamp, min_eq_right (by linarith)]
    exact max_eq_right hM.le
  have hG : colliderInit .Ground = ⟨MAXV, 1 / MAXV, MAXV, 1 / MAXV⟩ := by
    simp [colliderInit, setMass, setInertia, hclM, hM.ne']
  have hG2 : setInertia (colliderInit .Ground) (2 * MAXV) =
      ⟨MAXV, 1 / MAXV, MAXV, 1 / (2 * MAXV)⟩ := by
    rw [hG]
    simp [setInertia, hcl2, hM.ne']
  have hlt : 1 / (2 * MAXV) < 1 / MAXV :=
    one_div_lt_one_div_of_lt hM (by linarith)
  exact ⟨by rw [hG], by rw [hG]; exact one_div_ne_zero hM.ne',
    by rw [hG2], by rw [hG2], by rw [hG2]; exact ne_of_lt hlt⟩

/-- The Euclidean length of a 2-vector over the reals (math.ts
Vector2.length, not in the sources). -/
noncomputable def rlen (x y : ℝ) : ℝ := Real.sqrt (x ^ 2 + y ^ 2)

/-- Modelled from the spec: Vector2.normalized from math.ts (not in the
sources): the vector scaled by the reciprocal of its Euclidean length. -/
noncomputable def normalized (x y : ℝ) : ℝ × ℝ := (x / rlen x y, y / rlen x y)

/-- The Edge constructor's direction (edge.ts lines 9-18): coincident
endpoints are caught first and give the zero vector, otherwise the normalized
difference p2 − p1.  The points are rational (the float inputs); the
direction lives in ℝ × ℝ. -/
noncomputable def edgeDir (p1 p2 : ℚ × ℚ) : ℝ × ℝ :=
  if p1 = p2 then (0, 0)
  else normalized ((p2.1 : ℝ) - (p1.1 : ℝ)) ((p2.2 : ℝ) - (p1.2 : ℝ))

/-- Normalizing a vector of nonzero squared length yields a unit vector. -/
theorem rlen_normalized (x y : ℝ) (h : x ^ 2 + y ^ 2 ≠ 0) :
    rlen (normalized x y).1 (normalized x y).2 = 1 := by
  have hs : 0 < x ^ 2 + y ^ 2 :=
    lt_of_le_of_ne (by positivity) (Ne.symm h)
  simp only [normalized, rlen]
  rw [div_pow, div_pow, div_add_div_same, Real.sq_sqrt hs.le, div_self hs.ne']
  exact Real.sqrt_one

/-- C10: the Edge constructor is total: when the endpoints coincide the
direction is the zero vector (the normalization divide is never reached), and
otherwise the direction is the normalized difference (p2 − p1)/‖p2 − p1‖,
which has unit length. -/
theorem c10_edge_constructor (p1 p2 : ℚ × ℚ) :
    (p1 = p2 → edgeDir p1 p2 = (0, 0)) ∧
      (p1 ≠ p2 →
        edgeDir p1 p2 = normalized ((p2.1 : ℝ) - (p1.1 : ℝ)) ((p2.2 : ℝ) - (p1.2 : ℝ)) ∧
          rlen (edgeDir p1 p2).1 (edgeDir p1 p2).2 = 1) := by
  constructor
  · intro h
    rw [edgeDir, if_pos h]
  · intro h
    have he : edgeDir p1 p2 =
        normalized ((p2.1 : ℝ) - (p1.1 : ℝ)) ((p2.2 : ℝ) - (p1.2 : ℝ)) := by
      rw [edgeDir, if_neg h]
    refine ⟨he, ?_⟩
    rw [he]
    apply rlen_normalized
    have hne : p1.1 ≠ p2.1 ∨ p1.2 ≠ p2.2 := by
      by_contra hc
      push_neg at hc
      exact h (Prod.ext_iff.mpr ⟨hc.1, hc.2⟩)
    rcases hne with hx | hy
    · have hx2 : ((p2.1 : ℝ) - (p1.1 : ℝ)) ≠ 0 := by
        rw [sub_ne_zero]
        exact_mod_cast hx.symm
      have h1 : 0 < ((p2.1 : ℝ) - (p1.1 : ℝ)) ^ 2 := by positivity
      have h2 : (0 : ℝ) ≤ ((p2.2 : ℝ) - (p1.2 : ℝ)) ^ 2 := sq_nonneg _
      exact (add_pos_of_pos_of_nonneg h1 h2).ne'
    · have hy2 : ((p2.2 : ℝ) - (p1.2 : ℝ)) ≠ 0 := by
        rw [sub_ne_zero]
        exact_mod_cast hy.symm
      have h1 : 0 < ((p2.2 : ℝ) - (p1.2 : ℝ)) ^ 2 := by positivity
      have h2 : (0 : ℝ) ≤ ((p2.1 : ℝ) - (p1.1 : ℝ)) ^ 2 := sq_nonneg _
      exact (add_pos_of_nonneg_of_pos h2 h1).ne'

/-- C10 witness: coincident endpoints give the zero direction; the edge from
(0,0) to (3,4) gets a unit direction. -/
theorem c10_witness :
    edgeDir (0, 0) (0, 0) = (0, 0) ∧
      rlen (edgeDir (0, 0) (3, 4)).1 (edgeDir (0, 0) (3, 4)).2 = 1 :=
  ⟨(c10_edge_constructor (0, 0) (0, 0)).1 rfl,
    ((c10_edge_constructor (0, 0) (3, 4)).2 (by norm_num [Prod.ext_iff])).2⟩

end Phys
